import Mathlib

/-!
Shallow embedding of `automerge/src/types.rs`: the operation model of the
automerge CRDT engine — operation identifiers, the operation type
enumeration and its wire mapping, the operation record with its
visibility and counter-ledger algorithms, and change hashes — together
with theorems settling the specification claims about it.

Collaborator types that `types.rs` imports from sibling modules
(`OpIds` from `opids`, `Counter`/`ScalarValue`/`Value` from `value`,
`Clock` from `clock`) are modelled from the specification; their doc
comments say so.  Everything else is translated from `types.rs` itself.
Machine integers are modelled as `Nat`/`Int` (the algorithms here never
overflow their 64-bit ranges on the inputs the theorems quantify over,
and wrapping is made explicit where a cast occurs); `f64` is modelled as
`ℚ`, which contains every finite double exactly.
-/

namespace Automerge

/-- Lamport pair identifying an operation: `OpId(u32, u32)` in the source,
component 0 the counter and component 1 the actor-table index. -/
structure OpId where
  counter : Nat
  actor : Nat
deriving DecidableEq

/-- Source constant `ROOT: OpId = OpId(0, 0)`. -/
def ROOT : OpId := ⟨0, 0⟩

/-- Modelled from the spec: the counter scalar of `value.rs` (not among
the sources) carries a start value, a running total, and a ledger mapping
each incrementing operation id to the delta it applied. -/
structure Counter where
  start : Int
  current : Int
  increments : List (OpId × Int)
deriving DecidableEq

/-- Modelled from the spec: the scalar payloads of `value.rs` (not among
the sources).  `f64` is modelled as `ℚ`. -/
inductive ScalarValue where
  | bytes (bs : List Nat)
  | str (s : String)
  | int (i : Int)
  | uint (u : Nat)
  | f64 (q : ℚ)
  | counter (c : Counter)
  | timestamp (t : Int)
  | boolean (b : Bool)
  | null
deriving DecidableEq

/-- Modelled from the spec: the mark payload of `marks.rs` (not among the
sources) — a mark name plus a scalar value. -/
structure MarkData where
  name : String
  value : ScalarValue
deriving DecidableEq

/-- The type of an object (`ObjType` in the source). -/
inductive ObjType where
  | map
  | table
  | list
  | text
deriving DecidableEq

/-- The operation payload (`OpType` in the source). -/
inductive OpType where
  | make (t : ObjType)
  | delete
  | increment (n : Int)
  | put (v : ScalarValue)
  | markBegin (expand : Bool) (d : MarkData)
  | markEnd (expand : Bool)
deriving DecidableEq

/-- Wrapper identifying a sequence element (`ElemId` in the source). -/
structure ElemId where
  id : OpId
deriving DecidableEq

/-- Source constant `HEAD: ElemId = ElemId(OpId(0, 0))`. -/
def HEAD : ElemId := ⟨⟨0, 0⟩⟩

/-- Wrapper identifying a container (`ObjId` in the source). -/
structure ObjId where
  id : OpId
deriving DecidableEq

/-- `ObjId::root()` — the bootstrap container id `ObjId(OpId(0, 0))`. -/
def ObjId.root : ObjId := ⟨⟨0, 0⟩⟩

/-- `ObjId::is_root()` — `self.0.counter() == 0`: only the counter
component of the wrapped `OpId` is consulted. -/
def ObjId.is_root (o : ObjId) : Bool := o.id.counter == 0

/-- A key in the interned form (`Key` in the source). -/
inductive Key where
  | map (idx : Nat)
  | seq (e : ElemId)
deriving DecidableEq

/-- The user-facing property (`Prop` in the source; the prime avoids the
clash with the Lean sort of propositions). -/
inductive Prop' where
  | map (s : String)
  | seq (n : Nat)
deriving DecidableEq

/-- Largest value of a 64-bit `usize`. -/
def usizeMax : Nat := 2 ^ 64 - 1

/-- Rust semantics of `f as usize` for a finite `f64` (modelled as `ℚ`):
truncate toward zero, then saturate into `[0, usize::MAX]`.  On a
nonnegative rational this is `Int.toNat ⌊q⌋` clamped above; a negative
rational truncates/saturates to `0`, which `Int.toNat ⌊q⌋ = 0` also
yields. -/
def f64AsUsize (q : ℚ) : Nat := min (Int.toNat ⌊q⌋) usizeMax

/-- Source `impl From<f64> for Prop`: `Prop::Seq(index as usize)`. -/
def Prop'.fromF64 (q : ℚ) : Prop' := .seq (f64AsUsize q)

/-- Truncation toward zero of a rational, as an integer.  This is the
"value truncated toward zero" the specification speaks of; it is used
only to state claims, never inside an embedded definition. -/
def ratTrunc (q : ℚ) : Int := if q < 0 then -⌊-q⌋ else ⌊q⌋

/-- Error type of `validate_action_and_value` (source `InvalidOpType`). -/
inductive InvalidOpType where
  | unknownAction (a : Nat)
  | nonNumericInc
deriving DecidableEq

/-- `OpType::action_index` — the wire action code of each variant. -/
def OpType.action_index : OpType → Nat
  | .make .map => 0
  | .put _ => 1
  | .make .list => 2
  | .delete => 3
  | .make .text => 4
  | .increment _ => 5
  | .make .table => 6
  | .markBegin _ _ => 7
  | .markEnd _ => 7

/-- `OpType::validate_action_and_value` — action codes `0..=4`, `6`, `7`
always validate; code `5` validates only with an `Int` or `Uint` scalar;
any other code is an unknown action. -/
def OpType.validate_action_and_value (action : Nat) (value : ScalarValue) :
    Except InvalidOpType Unit :=
  if action ≤ 4 then .ok ()
  else if action = 5 then
    match value with
    | .int _ => .ok ()
    | .uint _ => .ok ()
    | _ => .error .nonNumericInc
  else if action = 6 then .ok ()
  else if action = 7 then .ok ()
  else .error (.unknownAction action)

/-- Rust semantics of `u as i64` for a `u64` value: wrap into the signed
64-bit range. -/
def u64AsI64 (u : Nat) : Int :=
  if u % 2 ^ 64 < 2 ^ 63 then ((u % 2 ^ 64 : Nat) : Int)
  else ((u % 2 ^ 64 : Nat) : Int) - 2 ^ 64

/-- `OpType::from_action_and_value`.  The two `unreachable!` arms of the
source (code `5` with a non-integer scalar, and a code above `7`) are
embedded as `none`. -/
def OpType.from_action_and_value (action : Nat) (value : ScalarValue)
    (mark_name : Option String) (expand : Bool) : Option OpType :=
  match action with
  | 0 => some (.make .map)
  | 1 => some (.put value)
  | 2 => some (.make .list)
  | 3 => some .delete
  | 4 => some (.make .text)
  | 5 =>
    match value with
    | .int i => some (.increment i)
    | .uint u => some (.increment (u64AsI64 u))
    | _ => none
  | 6 => some (.make .table)
  | 7 =>
    match mark_name with
    | some name => some (.markBegin expand ⟨name, value⟩)
    | none => some (.markEnd expand)
  | _ => none

/-- Modelled from the spec: `OpIds::add` (module `opids`, not among the
sources) inserts an id into a small ordered set at the position the
comparator dictates, unless the comparator finds an equal element already
present. -/
def OpIds.add (cmp : OpId → OpId → Ordering) : List OpId → OpId → List OpId
  | [], x => [x]
  | y :: ys, x =>
    match cmp y x with
    | .lt => y :: OpIds.add cmp ys x
    | .eq => y :: ys
    | .gt => x :: y :: ys

/-- Modelled from the spec: the causal clock of `clock.rs` (not among the
sources) is consulted only through its coverage predicate, so it is
embedded as that predicate. -/
def Clock := OpId → Bool

/-- The clock's "does this causal frontier include operation `id`" test. -/
def Clock.covers (c : Clock) (id : OpId) : Bool := c id

/-- The operation record (`Op` in the source).  `succ` and `pred` are the
`OpIds` ordered sets, modelled as lists. -/
structure Op where
  id : OpId
  action : OpType
  key : Key
  succ : List OpId
  pred : List OpId
  insert : Bool
deriving DecidableEq

/-- `Op::is_inc`. -/
def Op.is_inc (op : Op) : Bool :=
  match op.action with
  | .increment _ => true
  | _ => false

/-- `Op::is_mark`. -/
def Op.is_mark (op : Op) : Bool :=
  match op.action with
  | .markBegin _ _ => true
  | .markEnd _ => true
  | _ => false

/-- `Op::is_counter`. -/
def Op.is_counter (op : Op) : Bool :=
  match op.action with
  | .put (.counter _) => true
  | _ => false

/-- `Op::is_delete`. -/
def Op.is_delete (op : Op) : Bool :=
  match op.action with
  | .delete => true
  | _ => false

/-- `Op::incs` — the number of entries in the counter's increment ledger
(zero for a non-counter op). -/
def Op.incs (op : Op) : Nat :=
  match op.action with
  | .put (.counter c) => c.increments.length
  | _ => 0

/-- The ids recorded in the op's counter increment ledger (the key set of
the `HashSet` that `succ_iter` builds; empty for a non-counter op). -/
def Op.ledgerIds (op : Op) : List OpId :=
  match op.action with
  | .put (.counter c) => c.increments.map Prod.fst
  | _ => []

/-- `Op::increment` — fold a delta into the counter state: add it to the
running total and push `(id, n)` onto the ledger.  A no-op when the
action is not a counter put. -/
def Op.increment (op : Op) (n : Int) (id : OpId) : Op :=
  match op.action with
  | .put (.counter c) =>
    { op with
      action := .put (.counter
        { c with current := c.current + n, increments := c.increments ++ [(id, n)] }) }
  | _ => op

/-- `Op::add_succ` — insert `other.id` into `succ` using the supplied
comparator and, when `other` is an increment, fold its delta into the
counter state. -/
def Op.add_succ (op : Op) (other : Op) (cmp : OpId → OpId → Ordering) : Op :=
  let op' := { op with succ := OpIds.add cmp op.succ other.id }
  match other.action with
  | .increment n => op'.increment n other.id
  | _ => op'

/-- `Op::remove_succ` — drop `other.id` from `succ`; when this op is a
counter put and `other` an increment, also subtract the delta from the
running total and drop the ledger entry for `other.id`. -/
def Op.remove_succ (op : Op) (other : Op) : Op :=
  match op.action, other.action with
  | .put (.counter c), .increment n =>
    { op with
      succ := op.succ.filter fun i => decide (i ≠ other.id),
      action := .put (.counter
        { c with
          current := c.current - n,
          increments := c.increments.filter fun p => decide (p.1 ≠ other.id) }) }
  | _, _ => { op with succ := op.succ.filter fun i => decide (i ≠ other.id) }

/-- `Op::succ_iter` — the successors, except that for a counter op the
successors already recorded in the increment ledger are filtered out. -/
def Op.succ_iter (op : Op) : List OpId :=
  match op.action with
  | .put (.counter c) =>
    op.succ.filter fun i => decide (i ∉ c.increments.map Prod.fst)
  | _ => op.succ

/-- `Op::visible`. -/
def Op.visible (op : Op) : Bool :=
  if op.is_inc || op.is_mark then false
  else if op.is_counter then decide (op.succ.length ≤ op.incs)
  else op.succ.isEmpty

/-- `Op::visible_at`. -/
def Op.visible_at (op : Op) (clock : Option Clock) : Bool :=
  match clock with
  | some clock =>
    if op.is_inc || op.is_mark then false
    else clock.covers op.id && !(op.succ_iter.any fun i => clock.covers i)
  | none => op.visible

/-- `Op::valid_mark_anchor`. -/
def Op.valid_mark_anchor (op : Op) : Bool :=
  op.succ.isEmpty &&
    match op.action with
    | .markBegin true _ => true
    | .markEnd false => true
    | _ => false

/-- A value projected from an op (`Value` in the source; the borrowed /
owned distinction of the Rust `Cow` is irrelevant here). -/
inductive Value where
  | object (t : ObjType)
  | scalar (v : ScalarValue)
deriving DecidableEq

/-- Modelled from the spec: the display form of a scalar (`value.rs`, not
among the sources).  Only its existence matters to the claims below. -/
def ScalarValue.display : ScalarValue → String
  | .bytes _ => "bytes"
  | .str s => s
  | .int i => toString i
  | .uint u => toString u
  | .f64 q => toString q
  | .counter c => toString c.current
  | .timestamp t => toString t
  | .boolean b => toString b
  | .null => "null"

/-- `Op::value`.  The `panic!` arm of the source — reached exactly for
`Delete` and `Increment` actions — is embedded as `none`. -/
def Op.value (op : Op) : Option Value :=
  match op.action with
  | .make t => some (.object t)
  | .put v => some (.scalar v)
  | .markBegin _ d => some (.scalar (.str ("markBegin=" ++ d.value.display)))
  | .markEnd _ => some (.scalar (.str "markEnd"))
  | _ => none

/-- The three visibility regimes exactly as the specification words them:
increments and marks are never visible; a put of a counter scalar is
visible iff the successor count does not exceed the increment-ledger
length; any other op is visible iff `succ` is empty. -/
def visibleSpec (op : Op) : Bool :=
  match op.action with
  | .increment _ => false
  | .markBegin _ _ => false
  | .markEnd _ => false
  | .put (.counter c) => decide (op.succ.length ≤ c.increments.length)
  | _ => op.succ.isEmpty

/-- A concrete comparator for witnesses: lexicographic on
`(counter, actor)`, the session-local total order of the source. -/
def counterActorCmp (x y : OpId) : Ordering :=
  match compare x.counter y.counter with
  | .eq => compare x.actor y.actor
  | o => o

/-- The clock that covers every operation id. -/
def allCoversClock : Clock := fun _ => true

/-- Witness op for the round-trip law: a counter put with empty links. -/
def wopA : Op :=
  { id := ⟨1, 0⟩, action := .put (.counter ⟨0, 0, []⟩), key := .map 0,
    succ := [], pred := [], insert := false }

/-- Witness op for the round-trip law: an increment superseding `wopA`. -/
def wopB : Op :=
  { id := ⟨2, 0⟩, action := .increment 5, key := .map 0,
    succ := [], pred := [⟨1, 0⟩], insert := false }

/-- Round-trip counterexample target: an op whose `succ` already holds
the id about to be linked. -/
def cexA : Op :=
  { id := ⟨1, 0⟩, action := .make .map, key := .map 0,
    succ := [⟨2, 0⟩], pred := [], insert := false }

/-- Round-trip counterexample op whose id is already in `cexA.succ`. -/
def cexB : Op :=
  { id := ⟨2, 0⟩, action := .delete, key := .map 0,
    succ := [], pred := [⟨1, 0⟩], insert := false }

/-- Visibility counterexample: a counter put holding a ledger entry for
an id that does not occur in `succ` (a state `add_succ` never builds). -/
def cexC : Op :=
  { id := ⟨1, 0⟩, action := .put (.counter ⟨0, 0, [(⟨9, 9⟩, 1)]⟩), key := .map 0,
    succ := [⟨5, 5⟩], pred := [], insert := false }

/-- Witness op for the clocked-visibility law: a counter put whose one
successor is exactly its one ledgered increment. -/
def wopC : Op :=
  { id := ⟨1, 0⟩, action := .put (.counter ⟨0, 5, [(⟨2, 0⟩, 5)]⟩), key := .map 0,
    succ := [⟨2, 0⟩], pred := [], insert := false }

/-- Error type of the external hex crate's decoder: an invalid character
(with its position) or an odd-length input. -/
inductive FromHexError where
  | invalidHexCharacter (c : Char) (idx : Nat)
  | oddLength
deriving DecidableEq

/-- Value of a single hex digit; both cases accepted, as in the hex
crate. -/
def hexDigitValue (c : Char) : Option Nat :=
  if '0' ≤ c ∧ c ≤ '9' then some (c.toNat - '0'.toNat)
  else if 'a' ≤ c ∧ c ≤ 'f' then some (c.toNat - 'a'.toNat + 10)
  else if 'A' ≤ c ∧ c ≤ 'F' then some (c.toNat - 'A'.toNat + 10)
  else none

/-- Decode an even-length character list two digits per byte, reporting
the first invalid character and its index.  The one-character case is
unreachable under the even-length guard of `hexDecode`. -/
def hexDecodePairs : List Char → Nat → Except FromHexError (List Nat)
  | [], _ => .ok []
  | [_], _ => .error .oddLength
  | c₁ :: c₂ :: rest, i =>
    match hexDigitValue c₁ with
    | none => .error (.invalidHexCharacter c₁ i)
    | some h =>
      match hexDigitValue c₂ with
      | none => .error (.invalidHexCharacter c₂ (i + 1))
      | some lo => (hexDecodePairs rest (i + 2)).map fun bs => (16 * h + lo) :: bs

/-- The hex crate's `decode`: reject odd-length input, then decode digit
pairs. -/
def hexDecode (s : List Char) : Except FromHexError (List Nat) :=
  if s.length % 2 = 1 then .error .oddLength else hexDecodePairs s 0

/-- Lowercase hex digit for a value below 16 (the hex crate's `encode`
emits lowercase). -/
def hexDigitChar (n : Nat) : Char :=
  if n < 10 then Char.ofNat ('0'.toNat + n) else Char.ofNat ('a'.toNat + (n - 10))

/-- The hex crate's `encode`, two lowercase digits per byte. -/
def hexEncode : List Nat → List Char
  | [] => []
  | b :: bs => hexDigitChar (b / 16) :: hexDigitChar (b % 16) :: hexEncode bs

/-- Source constant `HASH_SIZE: usize = 32`. -/
def HASH_SIZE : Nat := 32

/-- The sha256 hash of a change (`ChangeHash(pub [u8; HASH_SIZE])`);
`from_str` only ever constructs it with exactly `HASH_SIZE` bytes. -/
structure ChangeHash where
  bytes : List Nat
deriving DecidableEq

/-- Source error type `ParseChangeHashError`: a hex decode failure, or a
decoded length different from `HASH_SIZE` (reporting the actual
length). -/
inductive ParseChangeHashError where
  | hexDecode (e : FromHexError)
  | incorrectLength (actual : Nat)
deriving DecidableEq

/-- `ChangeHash::from_str` — hex-decode the string (strings are modelled
as character lists), then require exactly `HASH_SIZE` decoded bytes. -/
def ChangeHash.from_str (s : List Char) : Except ParseChangeHashError ChangeHash :=
  match hexDecode s with
  | .error e => .error (.hexDecode e)
  | .ok bytes =>
    if bytes.length = HASH_SIZE then .ok ⟨bytes⟩
    else .error (.incorrectLength bytes.length)

/-- The `Display` form of a change hash: `hex::encode` of the bytes. -/
def ChangeHash.to_string (h : ChangeHash) : List Char := hexEncode h.bytes

/-- Boolean equality of `Except` values, used only to decide equations
about decoder results. -/
def exceptEqb {E A : Type} [DecidableEq E] [DecidableEq A] :
    Except E A → Except E A → Bool
  | .ok a, .ok b => decide (a = b)
  | .error e, .error f => decide (e = f)
  | _, _ => false

instance {E A : Type} [DecidableEq E] [DecidableEq A] : DecidableEq (Except E A) :=
  fun x y =>
    decidable_of_iff (exceptEqb x y = true)
      (by cases x <;> cases y <;> simp [exceptEqb])

/-- The sixteen lowercase hex digit characters, as the image of
`hexDigitChar`. -/
def lowerHexChars : List Char := (List.range 16).map hexDigitChar

/-- Concrete 64-character lowercase hex string for the C6 witness. -/
def c6hex : List Char := List.replicate 64 'a'

/-- Folding a batch of `add_succ` calls over an op, in list order
(statement plumbing for the round-trip law). -/
def applyAddSuccs (a : Op) (l : List Op) (cmp : OpId → OpId → Ordering) : Op :=
  l.foldl (fun s b => s.add_succ b cmp) a

/-- Folding a batch of `remove_succ` calls over an op, in list order. -/
def applyRemoveSuccs (a : Op) (l : List Op) : Op :=
  l.foldl Op.remove_succ a

/- ------------------------------------------------------------------ -/
/- Theorems                                                           -/
/- ------------------------------------------------------------------ -/

theorem OpIds.add_cases (cmp : OpId → OpId → Ordering) (l : List OpId) (x : OpId) :
    (∃ l₁ l₂, l = l₁ ++ l₂ ∧ OpIds.add cmp l x = l₁ ++ x :: l₂) ∨
      OpIds.add cmp l x = l := by
  induction l with
  | nil => exact .inl ⟨[], [], rfl, rfl⟩
  | cons y ys ih =>
    cases hcmp : cmp y x with
    | lt =>
      rcases ih with ⟨l₁, l₂, hsplit, hadd⟩ | hid
      · refine .inl ⟨y :: l₁, l₂, by rw [hsplit, List.cons_append], ?_⟩
        simp [OpIds.add, hcmp, hadd]
      · exact .inr (by simp [OpIds.add, hcmp, hid])
    | eq => exact .inr (by simp [OpIds.add, hcmp])
    | gt => exact .inl ⟨[], y :: ys, rfl, by simp [OpIds.add, hcmp]⟩

theorem OpIds.mem_add (cmp : OpId → OpId → Ordering) (l : List OpId) (x z : OpId)
    (hz : z ∈ OpIds.add cmp l x) : z ∈ l ∨ z = x := by
  rcases OpIds.add_cases cmp l x with ⟨l₁, l₂, hsplit, hadd⟩ | hid
  · rw [hadd] at hz
    rcases List.mem_append.mp hz with h | h
    · exact .inl (hsplit ▸ List.mem_append.mpr (.inl h))
    · rcases List.mem_cons.mp h with h | h
      · exact .inr h
      · exact .inl (hsplit ▸ List.mem_append.mpr (.inr h))
  · rw [hid] at hz
    exact .inl hz

theorem filter_eq_self_of {α : Type} (l : List α) (p : α → Bool)
    (h : ∀ a ∈ l, p a = true) : l.filter p = l :=
  List.filter_eq_self.mpr h

theorem add_filter_cancel (cmp : OpId → OpId → Ordering) (l : List OpId) (x : OpId)
    (h : x ∉ l) :
    (OpIds.add cmp l x).filter (fun i => decide (i ≠ x)) = l := by
  rcases OpIds.add_cases cmp l x with ⟨l₁, l₂, hsplit, hadd⟩ | hid
  · subst hsplit
    rw [hadd, List.filter_append, List.filter_cons]
    have h1 : x ∉ l₁ := fun hm => h (List.mem_append.mpr (.inl hm))
    have h2 : x ∉ l₂ := fun hm => h (List.mem_append.mpr (.inr hm))
    rw [if_neg (by simp)]
    rw [filter_eq_self_of _ _ (fun a ha => by
          simp only [decide_eq_true_eq]
          exact fun heq => h1 (heq ▸ ha)),
        filter_eq_self_of _ _ (fun a ha => by
          simp only [decide_eq_true_eq]
          exact fun heq => h2 (heq ▸ ha))]
  · rw [hid]
    exact filter_eq_self_of _ _ (fun a ha => by
      simp only [decide_eq_true_eq]
      exact fun heq => h (heq ▸ ha))

theorem append_filter_cancel (l : List (OpId × Int)) (x : OpId) (n : Int)
    (h : x ∉ l.map Prod.fst) :
    ((l ++ [(x, n)]).filter fun p => decide (p.1 ≠ x)) = l := by
  rw [List.filter_append]
  have h2 : ([((x : OpId), (n : Int))].filter fun p => decide (p.1 ≠ x)) = [] := by simp
  rw [h2, List.append_nil]
  exact filter_eq_self_of _ _ (fun p hp => by
    simp only [decide_eq_true_eq]
    exact fun heq => h (heq ▸ List.mem_map_of_mem Prod.fst hp))

theorem Op.ext_fields (x y : Op) (h1 : x.id = y.id) (h2 : x.action = y.action)
    (h3 : x.key = y.key) (h4 : x.succ = y.succ) (h5 : x.pred = y.pred)
    (h6 : x.insert = y.insert) : x = y := by
  cases x
  cases y
  simp_all

theorem Op.remove_succ_id (op other : Op) : (op.remove_succ other).id = op.id := by
  unfold Op.remove_succ
  split <;> rfl

theorem Op.remove_succ_key (op other : Op) : (op.remove_succ other).key = op.key := by
  unfold Op.remove_succ
  split <;> rfl

theorem Op.remove_succ_pred (op other : Op) : (op.remove_succ other).pred = op.pred := by
  unfold Op.remove_succ
  split <;> rfl

theorem Op.remove_succ_insert (op other : Op) :
    (op.remove_succ other).insert = op.insert := by
  unfold Op.remove_succ
  split <;> rfl

theorem Op.remove_succ_succ (op other : Op) :
    (op.remove_succ other).succ = op.succ.filter (fun i => decide (i ≠ other.id)) := by
  unfold Op.remove_succ
  split <;> rfl

theorem Op.increment_id (op : Op) (n : Int) (i : OpId) :
    (op.increment n i).id = op.id := by
  unfold Op.increment
  split <;> rfl

theorem Op.increment_key (op : Op) (n : Int) (i : OpId) :
    (op.increment n i).key = op.key := by
  unfold Op.increment
  split <;> rfl

theorem Op.increment_pred (op : Op) (n : Int) (i : OpId) :
    (op.increment n i).pred = op.pred := by
  unfold Op.increment
  split <;> rfl

theorem Op.increment_insert (op : Op) (n : Int) (i : OpId) :
    (op.increment n i).insert = op.insert := by
  unfold Op.increment
  split <;> rfl

theorem Op.increment_succ (op : Op) (n : Int) (i : OpId) :
    (op.increment n i).succ = op.succ := by
  unfold Op.increment
  split <;> rfl

theorem Op.add_succ_id (op other : Op) (cmp : OpId → OpId → Ordering) :
    (op.add_succ other cmp).id = op.id := by
  unfold Op.add_succ
  dsimp only
  split
  · rw [Op.increment_id]
  · rfl

theorem Op.add_succ_key (op other : Op) (cmp : OpId → OpId → Ordering) :
    (op.add_succ other cmp).key = op.key := by
  unfold Op.add_succ
  dsimp only
  split
  · rw [Op.increment_key]
  · rfl

theorem Op.add_succ_pred (op other : Op) (cmp : OpId → OpId → Ordering) :
    (op.add_succ other cmp).pred = op.pred := by
  unfold Op.add_succ
  dsimp only
  split
  · rw [Op.increment_pred]
  · rfl

theorem Op.add_succ_insert (op other : Op) (cmp : OpId → OpId → Ordering) :
    (op.add_succ other cmp).insert = op.insert := by
  unfold Op.add_succ
  dsimp only
  split
  · rw [Op.increment_insert]
  · rfl

theorem Op.add_succ_succ (op other : Op) (cmp : OpId → OpId → Ordering) :
    (op.add_succ other cmp).succ = OpIds.add cmp op.succ other.id := by
  unfold Op.add_succ
  dsimp only
  split
  · rw [Op.increment_succ]
  · rfl

theorem Op.remove_succ_action_of_not_inc (op other : Op)
    (h : ∀ n, other.action ≠ .increment n) :
    (op.remove_succ other).action = op.action := by
  unfold Op.remove_succ
  split
  · next c n heq1 heq2 => exact absurd heq2 (h n)
  · rfl

theorem Op.remove_succ_action_of_not_counter (op other : Op)
    (h : ∀ c, op.action ≠ .put (.counter c)) :
    (op.remove_succ other).action = op.action := by
  unfold Op.remove_succ
  split
  · next c n heq1 heq2 => exact absurd heq1 (h c)
  · rfl

theorem Op.remove_succ_action_counter_inc (op other : Op) (c : Counter) (n : Int)
    (hop : op.action = .put (.counter c)) (hoth : other.action = .increment n) :
    (op.remove_succ other).action = .put (.counter
      { c with
        current := c.current - n,
        increments := c.increments.filter fun p => decide (p.1 ≠ other.id) }) := by
  unfold Op.remove_succ
  split
  · next c' n' heq1 heq2 =>
    rw [hop] at heq1
    rw [hoth] at heq2
    cases heq1
    cases heq2
    rfl
  · next hne => exact (hne c n hop hoth).elim

theorem Op.add_succ_action_of_not_inc (op other : Op) (cmp : OpId → OpId → Ordering)
    (h : ∀ n, other.action ≠ .increment n) :
    (op.add_succ other cmp).action = op.action := by
  unfold Op.add_succ
  dsimp only
  split
  · next n heq => exact absurd heq (h n)
  · rfl

theorem Op.increment_action_of_not_counter (op : Op) (n : Int) (i : OpId)
    (h : ∀ c, op.action ≠ .put (.counter c)) :
    (op.increment n i).action = op.action := by
  unfold Op.increment
  split
  · next c heq => exact absurd heq (h c)
  · rfl

theorem Op.increment_action_counter (op : Op) (n : Int) (i : OpId) (c : Counter)
    (hop : op.action = .put (.counter c)) :
    (op.increment n i).action = .put (.counter
      { c with current := c.current + n, increments := c.increments ++ [(i, n)] }) := by
  unfold Op.increment
  split
  · next c' heq =>
    rw [hop] at heq
    cases heq
    rfl
  · next hne => exact (hne c hop).elim

theorem Op.add_succ_action_of_not_counter (op other : Op) (cmp : OpId → OpId → Ordering)
    (h : ∀ c, op.action ≠ .put (.counter c)) :
    (op.add_succ other cmp).action = op.action := by
  unfold Op.add_succ
  dsimp only
  split
  · exact Op.increment_action_of_not_counter _ _ _ h
  · rfl

theorem Op.add_succ_action_counter_inc (op other : Op) (cmp : OpId → OpId → Ordering)
    (c : Counter) (n : Int)
    (hop : op.action = .put (.counter c)) (hoth : other.action = .increment n) :
    (op.add_succ other cmp).action = .put (.counter
      { c with
        current := c.current + n,
        increments := c.increments ++ [(other.id, n)] }) := by
  unfold Op.add_succ
  dsimp only
  split
  · next n' heq =>
    rw [hoth] at heq
    cases heq
    exact Op.increment_action_counter _ _ _ c hop
  · next hne => exact (hne n hoth).elim

theorem Op.ledgerIds_congr (x y : Op) (h : x.action = y.action) :
    x.ledgerIds = y.ledgerIds := by
  unfold Op.ledgerIds
  rw [h]

/-- Cancellation: a single fresh `add_succ` followed by its matching
`remove_succ` restores the record exactly. -/
theorem remove_add_cancel (a b : Op) (cmp : OpId → OpId → Ordering)
    (h1 : b.id ∉ a.succ) (h2 : b.id ∉ a.ledgerIds) :
    (a.add_succ b cmp).remove_succ b = a := by
  have hid : (a.add_succ b cmp).id = a.id := Op.add_succ_id a b cmp
  apply Op.ext_fields
  · rw [Op.remove_succ_id, hid]
  · by_cases hinc : ∃ n, b.action = .increment n
    · obtain ⟨n, hn⟩ := hinc
      by_cases hcnt : ∃ c, a.action = .put (.counter c)
      · obtain ⟨c, hc⟩ := hcnt
        have ha := Op.add_succ_action_counter_inc a b cmp c n hc hn
        rw [Op.remove_succ_action_counter_inc (a.add_succ b cmp) b _ n ha hn, hc]
        have hledger : b.id ∉ c.increments.map Prod.fst := by
          intro hm
          apply h2
          unfold Op.ledgerIds
          rw [hc]
          exact hm
        rw [append_filter_cancel _ _ _ hledger]
        simp
      · push_neg at hcnt
        have ha := Op.add_succ_action_of_not_counter a b cmp hcnt
        rw [Op.remove_succ_action_of_not_counter _ _ (fun c hcc => hcnt c (ha ▸ hcc)), ha]
    · push_neg at hinc
      have ha := Op.add_succ_action_of_not_inc a b cmp hinc
      rw [Op.remove_succ_action_of_not_inc _ _ hinc, ha]
  · rw [Op.remove_succ_key, Op.add_succ_key]
  · rw [Op.remove_succ_succ, Op.add_succ_succ]
    exact add_filter_cancel cmp a.succ b.id h1
  · rw [Op.remove_succ_pred, Op.add_succ_pred]
  · rw [Op.remove_succ_insert, Op.add_succ_insert]

/-- Two `remove_succ` calls commute. -/
theorem remove_succ_comm (a b c : Op) :
    (a.remove_succ b).remove_succ c = (a.remove_succ c).remove_succ b := by
  apply Op.ext_fields
  · rw [Op.remove_succ_id, Op.remove_succ_id, Op.remove_succ_id, Op.remove_succ_id]
  · by_cases hcnt : ∃ k, a.action = .put (.counter k)
    · obtain ⟨k, hk⟩ := hcnt
      by_cases hb : ∃ n, b.action = .increment n
      · obtain ⟨n, hn⟩ := hb
        by_cases hc : ∃ m, c.action = .increment m
        · obtain ⟨m, hm⟩ := hc
          rw [Op.remove_succ_action_counter_inc (a.remove_succ b) c _ m
                (Op.remove_succ_action_counter_inc a b k n hk hn) hm,
              Op.remove_succ_action_counter_inc (a.remove_succ c) b _ n
                (Op.remove_succ_action_counter_inc a c k m hk hm) hn]
          simp only [OpType.put.injEq, ScalarValue.counter.injEq, Counter.mk.injEq,
            true_and]
          constructor
          · exact sub_right_comm k.current n m
          · rw [List.filter_filter, List.filter_filter]
            congr 1
            funext p
            exact Bool.and_comm _ _
        · push_neg at hc
          rw [Op.remove_succ_action_of_not_inc (a.remove_succ b) c hc,
              Op.remove_succ_action_counter_inc a b k n hk hn,
              Op.remove_succ_action_counter_inc (a.remove_succ c) b _ n
                ((Op.remove_succ_action_of_not_inc a c hc).trans hk) hn]
      · push_neg at hb
        by_cases hc : ∃ m, c.action = .increment m
        · obtain ⟨m, hm⟩ := hc
          rw [Op.remove_succ_action_counter_inc (a.remove_succ b) c _ m
                ((Op.remove_succ_action_of_not_inc a b hb).trans hk) hm,
              Op.remove_succ_action_of_not_inc (a.remove_succ c) b hb,
              Op.remove_succ_action_counter_inc a c k m hk hm]
        · push_neg at hc
          rw [Op.remove_succ_action_of_not_inc (a.remove_succ b) c hc,
              Op.remove_succ_action_of_not_inc a b hb,
              Op.remove_succ_action_of_not_inc (a.remove_succ c) b hb,
              Op.remove_succ_action_of_not_inc a c hc]
    · push_neg at hcnt
      have h1 : (a.remove_succ b).action = a.action :=
        Op.remove_succ_action_of_not_counter a b hcnt
      have h2 : (a.remove_succ c).action = a.action :=
        Op.remove_succ_action_of_not_counter a c hcnt
      rw [Op.remove_succ_action_of_not_counter (a.remove_succ b) c
            (fun k hkk => hcnt k (h1 ▸ hkk)),
          Op.remove_succ_action_of_not_counter (a.remove_succ c) b
            (fun k hkk => hcnt k (h2 ▸ hkk)), h1, h2]
  · rw [Op.remove_succ_key, Op.remove_succ_key, Op.remove_succ_key, Op.remove_succ_key]
  · rw [Op.remove_succ_succ, Op.remove_succ_succ, Op.remove_succ_succ, Op.remove_succ_succ,
        List.filter_filter, List.filter_filter]
    congr 1
    funext i
    exact Bool.and_comm _ _
  · rw [Op.remove_succ_pred, Op.remove_succ_pred, Op.remove_succ_pred, Op.remove_succ_pred]
  · rw [Op.remove_succ_insert, Op.remove_succ_insert, Op.remove_succ_insert,
        Op.remove_succ_insert]

theorem mem_ledger_add_succ (a b : Op) (cmp : OpId → OpId → Ordering) (x : OpId)
    (hx : x ∈ (a.add_succ b cmp).ledgerIds) : x ∈ a.ledgerIds ∨ x = b.id := by
  by_cases hinc : ∃ n, b.action = .increment n
  · obtain ⟨n, hn⟩ := hinc
    by_cases hcnt : ∃ c, a.action = .put (.counter c)
    · obtain ⟨c, hc⟩ := hcnt
      have ha := Op.add_succ_action_counter_inc a b cmp c n hc hn
      unfold Op.ledgerIds at hx ⊢
      rw [ha] at hx
      rw [hc]
      simp only [List.map_append, List.mem_append, List.map_cons, List.map_nil,
        List.mem_singleton] at hx
      rcases hx with h | h
      · exact .inl h
      · exact .inr h
    · push_neg at hcnt
      rw [Op.ledgerIds_congr _ a (Op.add_succ_action_of_not_counter a b cmp hcnt)] at hx
      exact .inl hx
  · push_neg at hinc
    rw [Op.ledgerIds_congr _ a (Op.add_succ_action_of_not_inc a b cmp hinc)] at hx
    exact .inl hx

/-- Peeling lemma: a batch of fresh, distinct `add_succ` calls undone by
the matching `remove_succ` calls in reverse order restores the record. -/
theorem applyRemoveSuccs_applyAddSuccs_reverse (cmp : OpId → OpId → Ordering) :
    ∀ (l : List Op) (A : Op),
      (l.map Op.id).Nodup →
      (∀ b ∈ l, b.id ∉ A.succ ∧ b.id ∉ A.ledgerIds) →
      applyRemoveSuccs (applyAddSuccs A l cmp) l.reverse = A := by
  intro l
  induction l with
  | nil => intro A _ _; rfl
  | cons b t ih =>
    intro A hnd hfresh
    have hb := hfresh b (List.mem_cons_self b t)
    simp only [List.map_cons, List.nodup_cons] at hnd
    obtain ⟨hbid, hndt⟩ := hnd
    have step2 : (b :: t).reverse = t.reverse ++ [b] := by simp
    have step3 : applyRemoveSuccs (applyAddSuccs (A.add_succ b cmp) t cmp)
          (t.reverse ++ [b])
        = (applyRemoveSuccs (applyAddSuccs (A.add_succ b cmp) t cmp)
            t.reverse).remove_succ b := by
      unfold applyRemoveSuccs
      rw [List.foldl_append]
      rfl
    have hfresh' : ∀ x ∈ t,
        x.id ∉ (A.add_succ b cmp).succ ∧ x.id ∉ (A.add_succ b cmp).ledgerIds := by
      intro x hx
      have hxid : x.id ≠ b.id := by
        intro he
        exact hbid (he ▸ List.mem_map_of_mem Op.id hx)
      have hfx := hfresh x (List.mem_cons_of_mem b hx)
      constructor
      · intro hmem
        rw [Op.add_succ_succ] at hmem
        rcases OpIds.mem_add cmp A.succ b.id x.id hmem with h | h
        · exact hfx.1 h
        · exact hxid h
      · intro hmem
        rcases mem_ledger_add_succ A b cmp x.id hmem with h | h
        · exact hfx.2 h
        · exact hxid h
    show applyRemoveSuccs (applyAddSuccs (A.add_succ b cmp) t cmp) (b :: t).reverse = A
    rw [step2, step3, ih (A.add_succ b cmp) hndt hfresh']
    exact remove_add_cancel A b cmp hb.1 hb.2

/-- C2 counterexample: when `B.id` is already in `A.succ`, the ordered
set's `add` is a no-op but `remove_succ` deletes the pre-existing entry,
so the round trip does not restore `A`. -/
theorem c2_counterexample :
    (cexA.add_succ cexB counterActorCmp).remove_succ cexB ≠ cexA := by decide

/-- C2 (amended): for every `Op` `A` and every batch of ops with pairwise
distinct ids, none already in `A.succ` nor in `A`'s increment ledger,
performing the `add_succ` calls and then the matching `remove_succ` calls
in any order returns `A` exactly to its prior state, and none of the
linked ids remains in `succ`. -/
theorem c2_add_remove_succ_round_trip (A : Op) (l l' : List Op)
    (cmp : OpId → OpId → Ordering)
    (hperm : l.Perm l')
    (hnd : (l.map Op.id).Nodup)
    (hfresh : ∀ b ∈ l, b.id ∉ A.succ ∧ b.id ∉ A.ledgerIds) :
    applyRemoveSuccs (applyAddSuccs A l cmp) l' = A ∧
    ∀ b ∈ l, b.id ∉ (applyRemoveSuccs (applyAddSuccs A l cmp) l').succ := by
  have hp : l'.Perm l.reverse := hperm.symm.trans (List.reverse_perm l).symm
  have hcomm : applyRemoveSuccs (applyAddSuccs A l cmp) l' =
      applyRemoveSuccs (applyAddSuccs A l cmp) l.reverse := by
    unfold applyRemoveSuccs
    exact hp.foldl_eq' (fun x _ y _ z => remove_succ_comm z x y) _
  rw [hcomm, applyRemoveSuccs_applyAddSuccs_reverse cmp l A hnd hfresh]
  exact ⟨rfl, fun b hb => (hfresh b hb).1⟩

/-- C2 witness: the amended round trip at the concrete counter op `wopA`
and the increment op `wopB`. -/
theorem c2_witness :
    applyRemoveSuccs (applyAddSuccs wopA [wopB] counterActorCmp) [wopB] = wopA ∧
    ∀ b ∈ [wopB],
      b.id ∉ (applyRemoveSuccs (applyAddSuccs wopA [wopB] counterActorCmp) [wopB]).succ :=
  c2_add_remove_succ_round_trip wopA [wopB] [wopB] counterActorCmp
    (List.Perm.refl _) (by decide) (by decide)

theorem any_eq_not_isEmpty {α : Type} (l : List α) (f : α → Bool)
    (hf : ∀ x, f x = true) : l.any f = !l.isEmpty := by
  cases l with
  | nil => rfl
  | cons a t => simp [hf]

theorem filter_not_mem_isEmpty_eq {α : Type} [DecidableEq α] (s ids : List α)
    (hs : s.Nodup) (hi : ids.Nodup) (hsub : ∀ i ∈ ids, i ∈ s) :
    (s.filter fun i => decide (i ∉ ids)).isEmpty = decide (s.length ≤ ids.length) := by
  by_cases hle : s.length ≤ ids.length
  · have hsp : ids.Subperm s := List.subperm_of_subset hi hsub
    have hperm : ids.Perm s := hsp.perm_of_length_le hle
    have hnil : (s.filter fun i => decide (i ∉ ids)) = [] := by
      rw [List.filter_eq_nil_iff]
      intro a ha
      simp only [decide_eq_true_eq]
      exact fun hna => hna (hperm.mem_iff.mpr ha)
    rw [hnil]
    simp [hle]
  · have hnotnil : ¬(s.filter fun i => decide (i ∉ ids)) = [] := by
      intro hnil
      apply hle
      have hsub2 : ∀ a ∈ s, a ∈ ids := by
        intro a ha
        by_contra hna
        have hmem : a ∈ s.filter fun i => decide (i ∉ ids) := by
          rw [List.mem_filter]
          exact ⟨ha, by simpa using hna⟩
        rw [hnil] at hmem
        exact absurd hmem (List.not_mem_nil a)
      exact (List.subperm_of_subset hs hsub2).length_le
    rw [decide_eq_false hle, Bool.eq_false_iff]
    intro h
    exact hnotnil (List.isEmpty_iff.mp h)

/-- C3 counterexample: a counter op holding a ledger entry for an id
absent from `succ` — `visible()` compares lengths and says `true`, while
`visible_at` with an all-covering clock filters the ledger ids out of
`succ`, finds a surviving successor, and says `false`. -/
theorem c3_counterexample :
    Op.visible cexC = true ∧ Op.visible_at cexC (some allCoversClock) = false :=
  ⟨by decide, by decide⟩

/-- C3 (amended): for every `Op` whose `succ` set and increment-ledger
ids are duplicate-free and whose ledger ids all occur in `succ` — the
state `add_succ` maintains — `visible_at` under a clock that covers every
`OpId` agrees with `visible()`. -/
theorem c3_visible_at_full_clock (op : Op) (clock : Clock)
    (h1 : op.succ.Nodup) (h2 : op.ledgerIds.Nodup)
    (h3 : ∀ i ∈ op.ledgerIds, i ∈ op.succ)
    (hc : ∀ i, clock.covers i = true) :
    op.visible_at (some clock) = op.visible := by
  obtain ⟨id, action, key, succ, pred, insert⟩ := op
  cases action with
  | increment n => rfl
  | markBegin e d => rfl
  | markEnd e => rfl
  | make t =>
    show (clock.covers id && !(succ.any fun i => clock.covers i)) = succ.isEmpty
    rw [hc id, Bool.true_and, any_eq_not_isEmpty succ _ (fun x => hc x), Bool.not_not]
  | delete =>
    show (clock.covers id && !(succ.any fun i => clock.covers i)) = succ.isEmpty
    rw [hc id, Bool.true_and, any_eq_not_isEmpty succ _ (fun x => hc x), Bool.not_not]
  | put v =>
    cases v
    case counter c =>
      dsimp only [Op.ledgerIds] at h2 h3
      show (clock.covers id &&
          !((succ.filter fun i => decide (i ∉ c.increments.map Prod.fst)).any
            fun i => clock.covers i))
        = decide (succ.length ≤ c.increments.length)
      rw [hc id, Bool.true_and,
        any_eq_not_isEmpty _ _ (fun x => hc x), Bool.not_not]
      have hlen : c.increments.length = (c.increments.map Prod.fst).length :=
        (List.length_map _ _).symm
      rw [hlen]
      exact filter_not_mem_isEmpty_eq succ (c.increments.map Prod.fst) h1 h2 h3
    all_goals
      show (clock.covers id && !(succ.any fun i => clock.covers i)) = succ.isEmpty
      rw [hc id, Bool.true_and, any_eq_not_isEmpty succ _ (fun x => hc x), Bool.not_not]

/-- C3 witness: the amended theorem at a concrete well-formed counter op
and the all-covering clock. -/
theorem c3_witness : Op.visible_at wopC (some allCoversClock) = Op.visible wopC :=
  c3_visible_at_full_clock wopC allCoversClock (by decide) (by decide) (by decide)
    (fun _ => rfl)

/-- C1: for every `Op`, `visible()` is decided by exactly the three
mutually exclusive regimes of the specification — increments and
mark-begin/mark-end ops are never visible; a put of a counter scalar is
visible iff `succ.len()` does not exceed the increment-ledger length;
every other op is visible iff `succ` is empty. -/
theorem c1_visible_three_regimes : ∀ op : Op, op.visible = visibleSpec op := by
  intro op
  obtain ⟨id, action, key, succ, pred, insert⟩ := op
  cases action with
  | put v => cases v <;> rfl
  | make t => rfl
  | delete => rfl
  | increment n => rfl
  | markBegin e d => rfl
  | markEnd e => rfl

/-- C4: the `OpType`-to-action-code mapping is exactly
0=Make(Map), 1=Put, 2=Make(List), 3=Delete, 4=Make(Text), 5=Increment,
6=Make(Table), 7=MarkBegin/MarkEnd, and `from_action_and_value` inverts
it on every valid code, with code 7 discriminated by the presence of a
mark name. -/
theorem c4_action_code_mapping :
    (OpType.action_index (.make .map) = 0) ∧
    (∀ v, OpType.action_index (.put v) = 1) ∧
    (OpType.action_index (.make .list) = 2) ∧
    (OpType.action_index .delete = 3) ∧
    (OpType.action_index (.make .text) = 4) ∧
    (∀ n, OpType.action_index (.increment n) = 5) ∧
    (OpType.action_index (.make .table) = 6) ∧
    (∀ e d, OpType.action_index (.markBegin e d) = 7) ∧
    (∀ e, OpType.action_index (.markEnd e) = 7) ∧
    (∀ v mn e, OpType.from_action_and_value 0 v mn e = some (.make .map)) ∧
    (∀ v mn e, OpType.from_action_and_value 1 v mn e = some (.put v)) ∧
    (∀ v mn e, OpType.from_action_and_value 2 v mn e = some (.make .list)) ∧
    (∀ v mn e, OpType.from_action_and_value 3 v mn e = some .delete) ∧
    (∀ v mn e, OpType.from_action_and_value 4 v mn e = some (.make .text)) ∧
    (∀ i mn e, OpType.from_action_and_value 5 (.int i) mn e = some (.increment i)) ∧
    (∀ u mn e,
      OpType.from_action_and_value 5 (.uint u) mn e = some (.increment (u64AsI64 u))) ∧
    (∀ v mn e, OpType.from_action_and_value 6 v mn e = some (.make .table)) ∧
    (∀ v nm e,
      OpType.from_action_and_value 7 v (some nm) e = some (.markBegin e ⟨nm, v⟩)) ∧
    (∀ v e, OpType.from_action_and_value 7 v none e = some (.markEnd e)) := by
  repeat' apply And.intro
  all_goals intros
  all_goals rfl

/-- C8: `valid_mark_anchor()` holds exactly for an op with no successors
whose action is `MarkBegin` with `expand = true` or `MarkEnd` with
`expand = false`. -/
theorem c8_valid_mark_anchor : ∀ op : Op,
    op.valid_mark_anchor = true ↔
      op.succ = [] ∧
        ((∃ d, op.action = .markBegin true d) ∨ op.action = .markEnd false) := by
  intro op
  obtain ⟨id, action, key, succ, pred, insert⟩ := op
  cases action with
  | markBegin e d => cases e <;> simp [Op.valid_mark_anchor, List.isEmpty_iff]
  | markEnd e => cases e <;> simp [Op.valid_mark_anchor, List.isEmpty_iff]
  | make t => simp [Op.valid_mark_anchor, List.isEmpty_iff]
  | delete => simp [Op.valid_mark_anchor, List.isEmpty_iff]
  | increment n => simp [Op.valid_mark_anchor, List.isEmpty_iff]
  | put v => simp [Op.valid_mark_anchor, List.isEmpty_iff]

/-- C9: `Op::value()` hits its fatal `panic!` arm (embedded as `none`)
exactly when the action is `Delete` or `Increment`; for `Make`, `Put`,
`MarkBegin` and `MarkEnd` it returns a value. -/
theorem c9_value_panics_exactly_on_delete_increment : ∀ op : Op,
    op.value = none ↔ (op.action = .delete ∨ ∃ n, op.action = .increment n) := by
  intro op
  obtain ⟨id, action, key, succ, pred, insert⟩ := op
  cases action <;> simp [Op.value]

/-- C10: `ObjId::is_root()` tests only the counter component, so every
`ObjId` with counter 0 is reported as root, including `ObjId(OpId(0, 7))`
which differs from `ObjId::root() = ObjId(OpId(0, 0))`. -/
theorem c10_is_root_ignores_actor :
    (∀ o : ObjId, o.is_root = true ↔ o.id.counter = 0) ∧
    ObjId.is_root ⟨⟨0, 7⟩⟩ = true ∧
    (⟨⟨0, 7⟩⟩ : ObjId) ≠ ObjId.root := by
  refine ⟨fun o => ?_, by decide, by decide⟩
  simp [ObjId.is_root]

/-- C5: validating an action code and scalar fails with the
non-numeric-increment error exactly when the code is 5 and the scalar is
neither a signed nor an unsigned integer, fails with an unknown-action
error naming the offending code exactly when the code exceeds 7, and
succeeds in every other case. -/
theorem c5_validate_action_and_value : ∀ (a : Nat) (v : ScalarValue),
    (OpType.validate_action_and_value a v = .error .nonNumericInc ↔
      a = 5 ∧ (match v with | .int _ => False | .uint _ => False | _ => True)) ∧
    (OpType.validate_action_and_value a v = .error (.unknownAction a) ↔ 7 < a) ∧
    (∀ b, OpType.validate_action_and_value a v = .error (.unknownAction b) → b = a) ∧
    (OpType.validate_action_and_value a v = .ok () ↔
      a ≤ 7 ∧
        ¬(a = 5 ∧ (match v with | .int _ => False | .uint _ => False | _ => True))) := by
  intro a v
  by_cases h8 : 7 < a
  · have hv : OpType.validate_action_and_value a v = .error (.unknownAction a) := by
      unfold OpType.validate_action_and_value
      rw [if_neg (by omega), if_neg (by omega), if_neg (by omega), if_neg (by omega)]
    refine ⟨?_, ?_, ?_, ?_⟩
    · rw [hv]
      simp only [Except.error.injEq]
      constructor
      · intro h; exact absurd h (by simp)
      · rintro ⟨h5, -⟩; omega
    · simp [hv, h8]
    · intro b hb
      rw [hv] at hb
      simpa using hb.symm
    · rw [hv]; simp; omega
  · by_cases h5 : a = 5
    · subst h5
      cases v <;>
        simp [OpType.validate_action_and_value]
    · have hok : OpType.validate_action_and_value a v = .ok () := by
        unfold OpType.validate_action_and_value
        rcases Nat.lt_or_ge a 5 with h | h
        · rw [if_pos (by omega)]
        · rw [if_neg (by omega), if_neg h5]
          rcases Nat.lt_or_ge a 7 with h7 | h7
          · rw [if_pos (by omega)]
          · rw [if_neg (by omega), if_pos (by omega)]
      refine ⟨?_, ?_, ?_, ?_⟩
      · rw [hok]; simp [h5]
      · rw [hok]; simp [h8]
      · intro b hb; rw [hok] at hb; exact absurd hb (by simp)
      · rw [hok]; simp [h5]; omega

/-- C5 witness: the two scenarios of the specification — code 5 with
`Str("x")` is a non-numeric increment, code 9 is unknown action 9. -/
theorem c5_witness :
    OpType.validate_action_and_value 5 (.str "x") = .error .nonNumericInc ∧
    OpType.validate_action_and_value 9 .null = .error (.unknownAction 9) :=
  ⟨(c5_validate_action_and_value 5 (.str "x")).1.mpr ⟨rfl, trivial⟩,
   (c5_validate_action_and_value 9 .null).2.1.mpr (by omega)⟩

/-- C7 counterexample: at the negative input `-2.9` the code saturates to
`Prop::Seq(0)` although the value truncated toward zero is `-2`, so the
claim's "for every f64 input the fractional part is discarded" fails. -/
theorem c7_counterexample :
    Prop'.fromF64 (-(29 / 10) : ℚ) = Prop'.seq 0 ∧
    ratTrunc (-(29 / 10) : ℚ) = -2 ∧ ((0 : Int) ≠ -2) := by
  have hfl : ⌊(-(29 / 10) : ℚ)⌋ = -3 := by
    rw [Int.floor_eq_iff]
    constructor <;> norm_num
  have hfl2 : ⌊(29 / 10 : ℚ)⌋ = 2 := by
    rw [Int.floor_eq_iff]
    constructor <;> norm_num
  refine ⟨?_, ?_, by decide⟩
  · unfold Prop'.fromF64 f64AsUsize
    rw [hfl]
    rfl
  · unfold ratTrunc
    rw [if_pos (by norm_num), neg_neg, hfl2]

/-- C7 (amended): for every nonnegative finite `f64` below `2^64`
(modelled as `ℚ`), `Prop::from` produces `Prop::Seq` of the input
truncated toward zero — the result `n` satisfies `n ≤ q < n + 1`;
negative inputs saturate to 0 and oversized ones clamp to
`usize::MAX`. -/
theorem c7_from_f64_truncates (q : ℚ) (h0 : 0 ≤ q) (h1 : q < 2 ^ 64) :
    ∃ n : Nat, Prop'.fromF64 q = .seq n ∧ (n : ℚ) ≤ q ∧ q < (n : ℚ) + 1 := by
  have h2 : (0 : Int) ≤ ⌊q⌋ := Int.floor_nonneg.mpr h0
  refine ⟨(⌊q⌋).toNat, ?_, ?_, ?_⟩
  · unfold Prop'.fromF64 f64AsUsize
    congr 1
    have hlt : ⌊q⌋ < (2 ^ 64 : Int) := by
      apply Int.floor_lt.mpr
      push_cast
      exact h1
    have hle : (⌊q⌋).toNat ≤ usizeMax := by
      unfold usizeMax; omega
    exact min_eq_left hle
  · have hfl := Int.floor_le q
    calc ((⌊q⌋.toNat : Int) : ℚ) = ((⌊q⌋ : Int) : ℚ) := by
          rw [Int.toNat_of_nonneg h2]
      _ ≤ q := hfl
  · have hfl := Int.lt_floor_add_one q
    calc q < ((⌊q⌋ : Int) : ℚ) + 1 := hfl
      _ = ((⌊q⌋.toNat : Int) : ℚ) + 1 := by rw [Int.toNat_of_nonneg h2]

/-- C7 witness: the amended theorem at the concrete input `2.9`. -/
theorem c7_witness :
    ∃ n : Nat, Prop'.fromF64 (29 / 10 : ℚ) = .seq n ∧
      (n : ℚ) ≤ 29 / 10 ∧ (29 / 10 : ℚ) < (n : ℚ) + 1 :=
  c7_from_f64_truncates (29 / 10) (by norm_num) (by norm_num)

theorem lowerHex_digit_spec : ∀ c ∈ lowerHexChars,
    ∃ v, hexDigitValue c = some v ∧ v < 16 ∧ hexDigitChar v = c := by
  have key : ∀ v, v < 16 → hexDigitValue (hexDigitChar v) = some v := by decide
  intro c hc
  simp only [lowerHexChars, List.mem_map, List.mem_range] at hc
  obtain ⟨v, hv, rfl⟩ := hc
  exact ⟨v, key v hv, hv, rfl⟩

theorem hexDecodePairs_roundtrip : ∀ (fuel : Nat) (s : List Char),
    s.length ≤ fuel → s.length % 2 = 0 → (∀ c ∈ s, c ∈ lowerHexChars) → ∀ i,
    ∃ bs, hexDecodePairs s i = .ok bs ∧ bs.length = s.length / 2 ∧
      hexEncode bs = s := by
  intro fuel
  induction fuel with
  | zero =>
    intro s hs _ _ i
    have hnil : s = [] := List.length_eq_zero.mp (Nat.le_zero.mp hs)
    subst hnil
    exact ⟨[], rfl, rfl, rfl⟩
  | succ n ih =>
    intro s hs hpar hhex i
    match s with
    | [] => exact ⟨[], rfl, rfl, rfl⟩
    | [c] => simp at hpar
    | c₁ :: c₂ :: rest =>
      obtain ⟨h, hh1, hh2, hh3⟩ := lowerHex_digit_spec c₁ (hhex _ (by simp))
      obtain ⟨lo, hl1, hl2, hl3⟩ := lowerHex_digit_spec c₂ (hhex _ (by simp))
      have hr : rest.length ≤ n := by
        simp only [List.length_cons] at hs
        omega
      have hrpar : rest.length % 2 = 0 := by
        simp only [List.length_cons] at hpar ⊢
        omega
      obtain ⟨bs, hbs1, hbs2, hbs3⟩ :=
        ih rest hr hrpar (fun c hc => hhex c (by simp [hc])) (i + 2)
      refine ⟨(16 * h + lo) :: bs, ?_, ?_, ?_⟩
      · simp only [hexDecodePairs, hh1, hl1, hbs1, Except.map]
      · simp only [List.length_cons, hbs2]
        omega
      · simp only [hexEncode]
        rw [show (16 * h + lo) / 16 = h by omega, show (16 * h + lo) % 16 = lo by omega,
          hh3, hl3, hbs3]

/-- C6 counterexample: a 63-character string fails hex decoding with the
odd-length error, not with an error reporting a decoded byte length. -/
theorem c6_counterexample :
    ChangeHash.from_str (List.replicate 63 '0') = .error (.hexDecode .oddLength) ∧
    ChangeHash.from_str (List.replicate 63 '0') ≠ .error (.incorrectLength 31) := by
  exact ⟨by decide, by decide⟩

/-- C6 (amended): for a string of lowercase hex digits, `from_str`
succeeds on length 64 and `to_string` round-trips it; an even length
other than 64 fails with the incorrect-length error reporting the decoded
byte count; an odd length fails with the hex odd-length error. -/
theorem c6_change_hash_from_str (s : List Char)
    (hhex : ∀ c ∈ s, c ∈ lowerHexChars) :
    (s.length = 64 →
      ∃ hsh, ChangeHash.from_str s = .ok hsh ∧ hsh.to_string = s) ∧
    (s.length % 2 = 0 → s.length ≠ 64 →
      ChangeHash.from_str s = .error (.incorrectLength (s.length / 2))) ∧
    (s.length % 2 = 1 →
      ChangeHash.from_str s = .error (.hexDecode .oddLength)) := by
  refine ⟨?_, ?_, ?_⟩
  · intro h64
    obtain ⟨bs, hbs1, hbs2, hbs3⟩ :=
      hexDecodePairs_roundtrip s.length s le_rfl (by omega) hhex 0
    have hdec : hexDecode s = .ok bs := by
      unfold hexDecode
      rw [if_neg (by omega)]
      exact hbs1
    have hlen : bs.length = HASH_SIZE := by
      unfold HASH_SIZE
      omega
    refine ⟨⟨bs⟩, ?_, hbs3⟩
    simp only [ChangeHash.from_str, hdec, hlen, if_pos]
  · intro hpar hne
    obtain ⟨bs, hbs1, hbs2, hbs3⟩ :=
      hexDecodePairs_roundtrip s.length s le_rfl hpar hhex 0
    have hdec : hexDecode s = .ok bs := by
      unfold hexDecode
      rw [if_neg (by omega)]
      exact hbs1
    have hlen : ¬bs.length = HASH_SIZE := by
      unfold HASH_SIZE
      omega
    simp only [ChangeHash.from_str, hdec, hbs2]
    rw [if_neg (by unfold HASH_SIZE; omega)]
  · intro hpar
    have hdec : hexDecode s = .error .oddLength := by
      unfold hexDecode
      rw [if_pos hpar]
    simp only [ChangeHash.from_str, hdec]

/-- C6 witness: the round trip at the concrete 64-character string of
`'a'` digits. -/
theorem c6_witness :
    ∃ hsh, ChangeHash.from_str c6hex = .ok hsh ∧ hsh.to_string = c6hex :=
  (c6_change_hash_from_str c6hex (by decide)).1 (by decide)

end Automerge
